import Mathlib

/-!
Shallow embedding of the Device Conversational Audio Session
(src/audio_websocket.py, class DeviceAudioSession) of soven-server.

Python strings are modelled as lists of characters; Python bytes as lists
of natural numbers.  The three external inference engines (STT, LLM, TTS)
and the network send operations are modelled by an explicit oracle that
fixes their behaviour for one finalization run, so that the control flow
of the session code itself is what the theorems speak about.
-/

namespace SovenServer

/-- Python str values are modelled as lists of characters. -/
abbrev Str := List Char

/-- Python str.lower, mapped character-wise (ASCII case folding). -/
def lowerStr (s : Str) : Str := s.map Char.toLower

/-- Boolean test that the first list starts the second list. -/
def prefixMatch : Str → Str → Bool
  | [], _ => true
  | _ :: _, [] => false
  | a :: as, b :: bs => (a == b) && prefixMatch as bs

/-- Python substring membership test: needle occurs contiguously in hay. -/
def containsSub (hay needle : Str) : Bool :=
  match hay with
  | [] => needle.isEmpty
  | c :: t => prefixMatch needle (c :: t) || containsSub t needle

/-- Python str.lstrip for whitespace: drop leading whitespace characters. -/
def lstripWs : Str → Str
  | [] => []
  | c :: t => if c.isWhitespace then lstripWs t else c :: t

/-- Python str.strip for whitespace: drop leading and trailing whitespace. -/
def stripWs (s : Str) : Str := (lstripWs ((lstripWs s).reverse)).reverse

/-- Worker for replaceAll, structurally recursive on a fuel argument so
that the kernel can evaluate it; with fuel at least the string length and
a non-empty pattern the fuel never runs out, since every step consumes at
least one character. -/
def replaceAllGo (pattern : Str) : Nat → Str → Str
  | _, [] => []
  | 0, s => s
  | fuel + 1, c :: t =>
    if prefixMatch pattern (c :: t) then
      replaceAllGo pattern fuel (List.drop pattern.length (c :: t))
    else
      c :: replaceAllGo pattern fuel t

/-- Python str.replace with empty replacement: delete every left-to-right
non-overlapping occurrence of the pattern (with an empty pattern and an
empty replacement, Python returns the string unchanged). -/
def replaceAll (s pattern : Str) : Str :=
  match pattern with
  | [] => s
  | p :: ps => replaceAllGo (p :: ps) s.length s

/-- Number of characters of a string that are not whitespace. -/
def nonWhitespaceCount (s : Str) : Nat :=
  (s.filter (fun c => !c.isWhitespace)).length

/-- Outcome of one call to the Ollama chat endpoint made by
generate_response: a 200 response with a reply content, a non-200
response, or a raised exception (connection error or 30 s timeout). -/
inductive LLMResult where
  | success (content : String)
  | httpError
  | exception
deriving DecidableEq

/-- DeviceAudioSession.generate_response: returns the reply content on a
200 response, a fixed apology on a non-200 status, and a different fixed
apology when the request raises; it never propagates an exception. -/
def generate_response (llm : LLMResult) (user_input : Str) : String :=
  match llm with
  | .success c => c
  | .httpError => "Sorry, I\x27m having trouble thinking right now."
  | .exception => "My brain\x27s offline. Try again?"

/-- DeviceAudioSession.generate_tts: the synthesized PCM bytes on success,
and empty bytes when the TTS engine raises internally. -/
def generate_tts (tts : Option (List Nat)) (text : String) : List Nat :=
  match tts with
  | some b => b
  | none => []

/-- DeviceAudioSession.validate_wake_word: lower-case the transcript and
report whether any of the four wake strings (bare lowercased name or a
greeting-prefixed form) occurs in it as a substring. -/
def validate_wake_word (ai_name transcript : Str) : Bool :=
  let transcript_lower := lowerStr transcript
  let nameLower := lowerStr ai_name
  let wake_words : List Str :=
    [nameLower,
     "hey ".toList ++ nameLower,
     "hi ".toList ++ nameLower,
     "hello ".toList ++ nameLower]
  wake_words.any (fun wake => containsSub transcript_lower wake)

/-- The command variable of DeviceAudioSession.extract_command just before
the length floor: the lowercased transcript after removing, for each wake
pattern in order, every occurrence and stripping whitespace. -/
def residual_command (ai_name transcript : Str) : Str :=
  let transcript_lower := lowerStr transcript
  let nameLower := lowerStr ai_name
  let patterns : List Str :=
    ["hey ".toList ++ nameLower,
     "hi ".toList ++ nameLower,
     "hello ".toList ++ nameLower,
     nameLower]
  patterns.foldl (fun command pattern => stripWs (replaceAll command pattern))
    transcript_lower

/-- DeviceAudioSession.extract_command: the residual command text, or the
fixed filler when fewer than 3 characters remain. -/
def extract_command (ai_name transcript : Str) : Str :=
  let command := residual_command ai_name transcript
  if command.length < 3 then "yes?".toList else command

/-- The amended removal rule of claim C6, written from its corrected
wording: lowercase the transcript, then remove every occurrence of each
wake pattern in the fixed order hey+name, hi+name, hello+name, bare name,
trimming whitespace after each removal pass, and substitute the filler
when fewer than 3 characters remain. -/
def extract_command_amended (ai_name transcript : Str) : Str :=
  let nameLower := lowerStr ai_name
  let step1 := stripWs (replaceAll (lowerStr transcript)
    ("hey ".toList ++ nameLower))
  let step2 := stripWs (replaceAll step1 ("hi ".toList ++ nameLower))
  let step3 := stripWs (replaceAll step2 ("hello ".toList ++ nameLower))
  let step4 := stripWs (replaceAll step3 nameLower)
  if step4.length < 3 then "yes?".toList else step4

/-- Worker for chunksFrom, structurally recursive on a fuel argument so
that the kernel can evaluate it; with fuel at least the byte count the
fuel never runs out, since every step consumes at least one byte. -/
def chunksFromGo : Nat → List Nat → List (List Nat)
  | _, [] => []
  | 0, _ :: _ => []
  | fuel + 1, c :: t =>
    (c :: t).take 1024 :: chunksFromGo fuel ((c :: t).drop 1024)

/-- The successive 1024-byte slices taken by the loop of
DeviceAudioSession.stream_audio_to_device. -/
def chunksFrom (bytes : List Nat) : List (List Nat) :=
  chunksFromGo bytes.length bytes

/-- Frames the server can send to the device during finalization. -/
inductive Msg where
  | noWakeWord
  | audioEnd
  | binaryChunk (bytes : List Nat)
deriving DecidableEq

/-- Sends a list of frames in order, numbering the send operations from k;
a send whose number the failure oracle marks raises, which abandons the
remaining frames.  Returns the frames actually sent, the next operation
number, and whether a send raised. -/
def sendSeq (fail : Nat → Bool) : Nat → List Msg → List Msg × Nat × Bool
  | k, [] => ([], k, false)
  | k, m :: rest =>
    if fail k then ([], k, true)
    else
      let r := sendSeq fail (k + 1) rest
      (m :: r.1, r.2.1, r.2.2)

/-- The mutable per-connection state of DeviceAudioSession used by the
utterance pipeline: the loaded assistant name, the accumulated audio
fragments, and the recording flag. -/
structure SessionState where
  ai_name : Str
  audio_chunks : List (List Nat)
  recording : Bool

/-- Behaviour of the external world during one finalization run: the
transcript the STT adapter returns (it never raises: it fails closed to
the empty string), the LLM call outcome, the TTS engine outcome, and
which send operations raise. -/
structure FinalizeOracle where
  transcript : Str
  llm : LLMResult
  tts : Option (List Nat)
  sendFail : Nat → Bool

/-- Observable outcome of one run of the finalization routine: the session
state afterwards, the frames actually sent, whether an exception escaped
the routine, and the inputs passed to the LLM and TTS adapters. -/
structure FinalizeResult where
  state : SessionState
  msgs : List Msg
  raised : Bool
  llmCalls : List Str
  ttsCalls : List String

/-- The session state after the reset step of finalization: buffer empty,
recording flag cleared. -/
def clearedState (s : SessionState) : SessionState :=
  { s with audio_chunks := [], recording := false }

/-- DeviceAudioSession.process_complete_audio.  The early return on an
empty buffer leaves the state untouched.  Reinterpreting the joined bytes
as 16-bit samples (np.frombuffer) raises on an odd byte count; this
happens before the try block, so nothing is sent, nothing is cleared and
the exception escapes.  Inside the try block, a short or empty transcript
or a missing wake word sends no_wake_word and returns; otherwise the
command is extracted, the LLM reply generated, synthesized and streamed,
and audio_end sent.  Any exception inside the try block (only the send
operations can raise there, since all three adapters fail closed) is
swallowed, and the finally clause clears the buffer and the recording
flag on every path through the try block. -/
def process_complete_audio (s : SessionState) (o : FinalizeOracle) :
    FinalizeResult :=
  if s.audio_chunks = [] then
    { state := s, msgs := [], raised := false, llmCalls := [], ttsCalls := [] }
  else
    let audio_data := s.audio_chunks.flatten
    if audio_data.length % 2 ≠ 0 then
      { state := s, msgs := [], raised := true, llmCalls := [], ttsCalls := [] }
    else
      let transcript := o.transcript
      if transcript = [] ∨ (stripWs transcript).length < 3 then
        { state := clearedState s,
          msgs := if o.sendFail 0 then [] else [Msg.noWakeWord],
          raised := false, llmCalls := [], ttsCalls := [] }
      else if validate_wake_word s.ai_name transcript = false then
        { state := clearedState s,
          msgs := if o.sendFail 0 then [] else [Msg.noWakeWord],
          raised := false, llmCalls := [], ttsCalls := [] }
      else
        let command := extract_command s.ai_name transcript
        let ai_response := generate_response o.llm command
        let audio_bytes := generate_tts o.tts ai_response
        let sent := sendSeq o.sendFail 0
          ((chunksFrom audio_bytes).map Msg.binaryChunk ++ [Msg.audioEnd])
        { state := clearedState s, msgs := sent.1, raised := false,
          llmCalls := [command], ttsCalls := [ai_response] }

/-- DeviceAudioSession.handle_audio_chunk: append the fragment and set the
recording flag (idempotently). -/
def handle_audio_chunk (s : SessionState) (chunk : List Nat) : SessionState :=
  { s with audio_chunks := s.audio_chunks ++ [chunk], recording := true }

/-- Inbound frames the receive loop of handle_session reacts to: a binary
audio fragment, the AUDIO_END control token (tagged with the oracle for
the finalization run it triggers), and a device_hello identity update
(tagged with the assistant name the profile reload resolves). -/
inductive InMsg where
  | bytes (chunk : List Nat)
  | audioEnd (o : FinalizeOracle)
  | deviceHello (new_name : Str)

/-- The receive loop of DeviceAudioSession.handle_session over a list of
inbound frames: fragments are appended, AUDIO_END runs finalization, and
device_hello reloads the profile.  An exception escaping finalization is
caught by the handler around the loop, which ends the session: no later
frame is processed. -/
def runMsgs : SessionState → List InMsg → SessionState × List Msg
  | s, [] => (s, [])
  | s, InMsg.bytes c :: rest => runMsgs (handle_audio_chunk s c) rest
  | s, InMsg.audioEnd o :: rest =>
    let r := process_complete_audio s o
    if r.raised then (r.state, r.msgs)
    else
      let k := runMsgs r.state rest
      (k.1, r.msgs ++ k.2)
  | s, InMsg.deviceHello n :: rest => runMsgs { s with ai_name := n } rest

/-- A sample mid-utterance session state with an even number of buffered
bytes, used to instantiate the universally quantified theorems. -/
def sampleState : SessionState :=
  { ai_name := "frank".toList, audio_chunks := [[0, 1], [2, 3]],
    recording := true }

/-- A sample benign environment: a wake-word transcript, a successful LLM
call, a 3-byte synthesized reply and no send failures. -/
def sampleOracle : FinalizeOracle :=
  { transcript := "hey frank make coffee".toList, llm := .success "Sure.",
    tts := some [1, 2, 3], sendFail := fun _ => false }

/-- A session state whose buffer holds a single one-byte fragment: the
joined byte count is odd, so the int16 reinterpretation raises. -/
def oddByteState : SessionState :=
  { ai_name := "frank".toList, audio_chunks := [[7]], recording := true }

/-- An environment whose transcript is empty, as when the STT adapter
fails closed. -/
def emptyTranscriptOracle : FinalizeOracle :=
  { transcript := [], llm := .success "Sure.", tts := some [1, 2, 3],
    sendFail := fun _ => false }

/-- A session state whose assistant name is the single letter a, so that
the wake-word gate fires on a transcript with two non-whitespace
characters. -/
def shortNameState : SessionState :=
  { ai_name := "a".toList, audio_chunks := [[0, 0]], recording := true }

/-- An environment whose trimmed transcript has length 3 but only two
non-whitespace characters. -/
def interiorSpaceOracle : FinalizeOracle :=
  { transcript := " a b ".toList, llm := .success "ok", tts := some [5],
    sendFail := fun _ => false }

/-- An environment in which the LLM request raises (connection error or
timeout) while everything else behaves. -/
def llmDownOracle : FinalizeOracle :=
  { transcript := "hey frank make coffee".toList, llm := .exception,
    tts := some [1, 2, 3], sendFail := fun _ => false }

/-- prefixMatch decides the existence of a completing suffix. -/
theorem prefixMatch_iff (needle hay : Str) :
    prefixMatch needle hay = true ↔ ∃ r, needle ++ r = hay := by
  induction needle generalizing hay with
  | nil => simp [prefixMatch]
  | cons a as ih =>
    cases hay with
    | nil => simp [prefixMatch]
    | cons b bs => simp [prefixMatch, ih, beq_iff_eq, List.cons_eq_cons]

/-- containsSub decides contiguous substring occurrence. -/
theorem containsSub_iff (hay needle : Str) :
    containsSub hay needle = true ↔ ∃ p q, p ++ needle ++ q = hay := by
  induction hay with
  | nil => simp [containsSub, List.isEmpty_iff]
  | cons c t ih =>
    simp [containsSub, prefixMatch_iff, ih]
    constructor
    · rintro (⟨r, hr⟩ | ⟨p, q, rfl⟩)
      · exact ⟨[], r, by simp [hr]⟩
      · exact ⟨c :: p, q, rfl⟩
    · rintro ⟨p, q, hpq⟩
      cases p with
      | nil => exact Or.inl ⟨q, by simpa using hpq⟩
      | cons x xs =>
        simp only [List.cons_append, List.cons.injEq] at hpq
        exact Or.inr ⟨xs, q, by simpa using hpq.2⟩

/-- Substring occurrence is preserved by character-wise mapping. -/
theorem containsSub_map (f : Char → Char) (hay needle : Str)
    (h : containsSub hay needle = true) :
    containsSub (hay.map f) (needle.map f) = true := by
  rw [containsSub_iff] at h ⊢
  obtain ⟨p, q, rfl⟩ := h
  exact ⟨p.map f, q.map f, by simp⟩

/-- Substring occurrence is transitive. -/
theorem containsSub_trans (a b c : Str) (h1 : containsSub b a = true)
    (h2 : containsSub c b = true) : containsSub c a = true := by
  rw [containsSub_iff] at h1 h2 ⊢
  obtain ⟨p, q, rfl⟩ := h1
  obtain ⟨p2, q2, rfl⟩ := h2
  exact ⟨p2 ++ p, q ++ q2, by simp⟩

/-- When no send operation fails, sendSeq delivers every frame in order
and no exception is raised. -/
theorem sendSeq_all_ok (fail : Nat → Bool) (h : ∀ n, fail n = false) :
    ∀ (k : Nat) (ms : List Msg),
      sendSeq fail k ms = (ms, k + ms.length, false) := by
  intro k ms
  induction ms generalizing k with
  | nil => simp [sendSeq]
  | cons m rest ih => simp [sendSeq, h, ih]; omega

/-- Dropping 1024 bytes from a non-empty byte string leaves at most as
many bytes as the tail bound. -/
theorem drop1024_length_le (c : Nat) (t : List Nat) (n : Nat)
    (h : t.length ≤ n) : ((c :: t).drop 1024).length ≤ n := by
  simp only [List.length_drop, List.length_cons]
  omega

/-- With enough fuel, the chunk worker does not depend on the exact fuel
value. -/
theorem chunksFromGo_congr (fuel1 : Nat) :
    ∀ (fuel2 : Nat) (bytes : List Nat), bytes.length ≤ fuel1 →
      bytes.length ≤ fuel2 → chunksFromGo fuel1 bytes = chunksFromGo fuel2 bytes := by
  induction fuel1 with
  | zero =>
    intro fuel2 bytes h1 _
    have hb : bytes = [] := by
      cases bytes with
      | nil => rfl
      | cons c t => simp at h1
    subst hb
    cases fuel2 <;> rfl
  | succ f ih =>
    intro fuel2 bytes h1 h2
    cases bytes with
    | nil => cases fuel2 <;> rfl
    | cons c t =>
      cases fuel2 with
      | zero => simp at h2
      | succ f2 =>
        simp only [chunksFromGo]
        rw [ih f2 ((c :: t).drop 1024)
          (drop1024_length_le c t f (by simpa using h1))
          (drop1024_length_le c t f2 (by simpa using h2))]

/-- Unfolding equation of chunksFrom on a non-empty byte string. -/
theorem chunksFrom_cons (c : Nat) (t : List Nat) :
    chunksFrom (c :: t)
      = (c :: t).take 1024 :: chunksFrom ((c :: t).drop 1024) := by
  show chunksFromGo (c :: t).length (c :: t) = _
  simp only [List.length_cons, chunksFromGo]
  rw [chunksFromGo_congr t.length ((c :: t).drop 1024).length
    ((c :: t).drop 1024) (drop1024_length_le c t t.length le_rfl) le_rfl]
  rfl

/-- The chunk list is empty exactly for empty audio. -/
theorem chunksFrom_eq_nil_iff (bytes : List Nat) :
    chunksFrom bytes = [] ↔ bytes = [] := by
  cases bytes with
  | nil => simp [chunksFrom, chunksFromGo]
  | cons c t => simp [chunksFrom_cons]

/-- Concatenating the chunks restores the audio byte string: the chunks
are contiguous and in order. -/
theorem chunksFrom_flatten (bytes : List Nat) :
    (chunksFrom bytes).flatten = bytes := by
  have H : ∀ (n : Nat) (bs : List Nat), bs.length ≤ n →
      (chunksFrom bs).flatten = bs := by
    intro n
    induction n with
    | zero =>
      intro bs h
      cases bs with
      | nil => rfl
      | cons c t => simp at h
    | succ m ih =>
      intro bs h
      cases bs with
      | nil => rfl
      | cons c t =>
        rw [chunksFrom_cons]
        simp only [List.flatten_cons,
          ih ((c :: t).drop 1024)
            (drop1024_length_le c t m (by simpa using h))]
        exact List.take_append_drop _ _
  exact H bytes.length bytes le_rfl

/-- The number of chunks is the byte count divided by 1024, rounded up. -/
theorem chunksFrom_length (bytes : List Nat) :
    (chunksFrom bytes).length = (bytes.length + 1023) / 1024 := by
  have H : ∀ (n : Nat) (bs : List Nat), bs.length ≤ n →
      (chunksFrom bs).length = (bs.length + 1023) / 1024 := by
    intro n
    induction n with
    | zero =>
      intro bs h
      cases bs with
      | nil => rfl
      | cons c t => simp at h
    | succ m ih =>
      intro bs h
      cases bs with
      | nil => rfl
      | cons c t =>
        rw [chunksFrom_cons]
        rw [List.length_cons,
          ih ((c :: t).drop 1024)
            (drop1024_length_le c t m (by simpa using h)),
          List.length_drop]
        simp only [List.length_cons]
        omega
  exact H bytes.length bytes le_rfl

/-- Every chunk holds between 1 and 1024 bytes. -/
theorem chunksFrom_mem (bytes : List Nat) (c : List Nat)
    (hc : c ∈ chunksFrom bytes) : c.length ≤ 1024 ∧ c ≠ [] := by
  have H : ∀ (n : Nat) (bs : List Nat), bs.length ≤ n →
      ∀ c ∈ chunksFrom bs, c.length ≤ 1024 ∧ c ≠ [] := by
    intro n
    induction n with
    | zero =>
      intro bs h d hd
      cases bs with
      | nil => simp [chunksFrom, chunksFromGo] at hd
      | cons x t => simp at h
    | succ m ih =>
      intro bs h d hd
      cases bs with
      | nil => simp [chunksFrom, chunksFromGo] at hd
      | cons x t =>
        rw [chunksFrom_cons] at hd
        rcases List.mem_cons.mp hd with hv | hv
        · subst hv
          constructor
          · simp [List.length_take]
          · simp [List.take]
        · exact ih ((x :: t).drop 1024)
            (drop1024_length_le x t m (by simpa using h)) d hv
  exact H bytes.length bytes le_rfl c hc

/-- Every chunk before the last one holds exactly 1024 bytes. -/
theorem chunksFrom_getD (bytes : List Nat) (i : Nat)
    (h : i + 1 < (chunksFrom bytes).length) :
    ((chunksFrom bytes).getD i []).length = 1024 := by
  have H : ∀ (n : Nat) (bs : List Nat), bs.length ≤ n →
      ∀ i, i + 1 < (chunksFrom bs).length →
        ((chunksFrom bs).getD i []).length = 1024 := by
    intro n
    induction n with
    | zero =>
      intro bs hle i hi
      cases bs with
      | nil => simp [chunksFrom, chunksFromGo] at hi
      | cons x t => simp at hle
    | succ m ih =>
      intro bs hle i hi
      cases bs with
      | nil => simp [chunksFrom, chunksFromGo] at hi
      | cons x t =>
        rw [chunksFrom_cons] at hi ⊢
        cases i with
        | zero =>
          have hd : (x :: t).drop 1024 ≠ [] := by
            intro he
            rw [he] at hi
            simp [chunksFrom, chunksFromGo] at hi
          have hlen : 1024 < t.length + 1 := by
            by_contra hge
            push_neg at hge
            apply hd
            apply List.drop_eq_nil_of_le
            simpa using hge
          rw [List.getD_cons_zero, List.length_take]
          simp only [List.length_cons]
          omega
        | succ j =>
          simp only [List.length_cons] at hi
          have := ih ((x :: t).drop 1024)
            (drop1024_length_le x t m (by simpa using hle)) j (by omega)
          simpa [List.getD] using this
  exact H bytes.length bytes le_rfl i h

/-- C1: after every run of utterance finalization the reset invariant
holds before the next inbound fragment could be appended: when no
exception escapes, the buffer is empty and the recording flag is false;
when an exception escapes (odd joined byte count, raised before the try
block), the receive loop ends and processes no further inbound frame, so
no fragment is ever appended to the uncleared state.  The hypothesis is
the session invariant that an empty buffer implies a cleared recording
flag, which holds for every state the receive loop can reach. -/
theorem c1_reset_invariant (s : SessionState) (o : FinalizeOracle)
    (rest : List InMsg)
    (hinv : s.audio_chunks = [] → s.recording = false) :
    (( process_complete_audio s o).raised = false →
      ( process_complete_audio s o).state.audio_chunks = [] ∧
      ( process_complete_audio s o).state.recording = false) ∧
    (( process_complete_audio s o).raised = true →
      runMsgs s (InMsg.audioEnd o :: rest) =
        (( process_complete_audio s o).state,
         ( process_complete_audio s o).msgs)) := by
  constructor
  · intro hr
    simp only [ process_complete_audio] at hr ⊢
    split_ifs at hr ⊢ with h1 <;>
      first
        | exact ⟨h1, hinv h1⟩
        | simp_all [clearedState]
  · intro hr
    simp only [runMsgs, process_complete_audio] at hr ⊢
    split_ifs at hr ⊢
    all_goals simp_all

/-- C1 witness: a concrete successful finalization run ends with an empty
buffer and a cleared recording flag. -/
theorem c1_reset_invariant_witness :
    ( process_complete_audio sampleState sampleOracle).state.audio_chunks
      = [] ∧
    ( process_complete_audio sampleState sampleOracle).state.recording
      = false :=
  (c1_reset_invariant sampleState sampleOracle [] (by decide)).1 (by decide)

/-- C2: when the buffered bytes form whole 16-bit samples (even joined
byte count, so the reinterpretation step before the try block does not
raise), no exception whatsoever escapes finalization - every exception in
the transcription, wake-word, extraction, generation, synthesis,
streaming and terminal-send steps is caught inside the routine - the
buffer is cleared, and the receive loop continues with the remaining
inbound frames: one utterance cannot terminate the connection. -/
theorem c2_failure_containment (s : SessionState) (o : FinalizeOracle)
    (rest : List InMsg)
    (heven : s.audio_chunks.flatten.length % 2 = 0) :
    ( process_complete_audio s o).raised = false ∧
    ( process_complete_audio s o).state.audio_chunks = [] ∧
    runMsgs s (InMsg.audioEnd o :: rest) =
      ((runMsgs ( process_complete_audio s o).state rest).1,
        ( process_complete_audio s o).msgs ++
          (runMsgs ( process_complete_audio s o).state rest).2) := by
  have hraised : ( process_complete_audio s o).raised = false := by
    simp only [ process_complete_audio]
    split_ifs <;> simp_all
  refine ⟨hraised, ?_, ?_⟩
  · simp only [ process_complete_audio]
    split_ifs with h1 <;> first
      | exact h1
      | simp_all [clearedState]
  · simp only [runMsgs]
    simp [hraised]

/-- C2 witness: a concrete finalization run raises nothing, clears the
buffer, and lets the receive loop continue. -/
theorem c2_failure_containment_witness :
    ( process_complete_audio sampleState sampleOracle).raised = false ∧
    ( process_complete_audio sampleState sampleOracle).state.audio_chunks
      = [] ∧
    runMsgs sampleState [InMsg.audioEnd sampleOracle] =
      ((runMsgs ( process_complete_audio sampleState sampleOracle).state
          []).1,
        ( process_complete_audio sampleState sampleOracle).msgs ++
          (runMsgs ( process_complete_audio sampleState sampleOracle).state
            []).2) :=
  c2_failure_containment sampleState sampleOracle [] (by decide)

/-- C3 counterexample: a non-empty buffer whose joined byte count is odd
makes the int16 reinterpretation raise before any send, so this
finalization run of a non-empty buffer emits no message at all - neither
a no_wake_word notice nor an audio_end marker - refuting the claim that
every finalize path of a non-empty buffer, including paths where an
internal step raises, ends in one of the two terminal messages. -/
theorem c3_counterexample :
    oddByteState.audio_chunks ≠ [] ∧
    ( process_complete_audio oddByteState sampleOracle).msgs = [] := by
  decide

/-- C3 amended: every finalization of a non-empty buffer whose joined
byte count is even and in which no send operation raises ends with a
terminal message: its last sent frame is a no_wake_word notice or an
audio_end marker. -/
theorem c3_terminal_notice (s : SessionState) (o : FinalizeOracle)
    (hne : s.audio_chunks ≠ [])
    (heven : s.audio_chunks.flatten.length % 2 = 0)
    (hsend : ∀ n, o.sendFail n = false) :
    ( process_complete_audio s o).msgs.getLast? = some Msg.noWakeWord ∨
    ( process_complete_audio s o).msgs.getLast? = some Msg.audioEnd := by
  simp only [ process_complete_audio, hsend, Bool.false_eq_true, if_false]
  rw [if_neg hne,
    if_neg (show ¬s.audio_chunks.flatten.length % 2 ≠ 0 by omega)]
  split_ifs with h3 h4
  · left; rfl
  · left; rfl
  · right
    rw [sendSeq_all_ok o.sendFail hsend]
    simp

/-- C3 witness: a concrete benign finalization run ends in a terminal
message. -/
theorem c3_terminal_notice_witness :
    ( process_complete_audio sampleState sampleOracle).msgs.getLast?
      = some Msg.noWakeWord ∨
    ( process_complete_audio sampleState sampleOracle).msgs.getLast?
      = some Msg.audioEnd :=
  c3_terminal_notice sampleState sampleOracle (by decide) (by decide)
    (fun _ => rfl)

/-- C5: the wake-word gate is case-insensitive - whenever some string u
occurring in the transcript is, up to letter case, the bare assistant
name or the name preceded by hey, hi or hello, validate_wake_word
reports the wake word present. -/
theorem c5_wake_word_case_insensitive (ai_name transcript u : Str)
    (hocc : containsSub transcript u = true)
    (hcase : lowerStr u = lowerStr ai_name ∨
      lowerStr u = "hey ".toList ++ lowerStr ai_name ∨
      lowerStr u = "hi ".toList ++ lowerStr ai_name ∨
      lowerStr u = "hello ".toList ++ lowerStr ai_name) :
    validate_wake_word ai_name transcript = true := by
  have hlow : containsSub (lowerStr transcript) (lowerStr u) = true :=
    containsSub_map Char.toLower transcript u hocc
  simp only [validate_wake_word, List.any_cons, List.any_nil,
    Bool.or_eq_true, Bool.or_false]
  rcases hcase with h | h | h | h <;> rw [h] at hlow <;>
    (try simp at hlow) <;> simp [hlow]

/-- C5 witness: a mixed-case greeting in a mixed-case transcript fires
the gate for assistant name Frank. -/
theorem c5_wake_word_case_insensitive_witness :
    validate_wake_word "Frank".toList "Hey FRANK make coffee".toList
      = true :=
  c5_wake_word_case_insensitive "Frank".toList
    "Hey FRANK make coffee".toList "Hey FRANK".toList (by decide)
    (by decide)

/-- C4: streaming a synthesized reply of L bytes sends exactly
ceil(L/1024) binary chunks - every chunk before the last holds exactly
1024 bytes, every chunk holds between 1 and 1024 bytes, and their
concatenation in order restores the reply - and on the successful wake
path (with no send failure) the sent frames are exactly those chunks
followed by exactly one audio_end marker, which is never sent before the
last chunk. -/
theorem c4_stream_termination (bytes : List Nat) (s : SessionState)
    (o : FinalizeOracle)
    (hne : s.audio_chunks ≠ [])
    (heven : s.audio_chunks.flatten.length % 2 = 0)
    (htr : ¬(o.transcript = [] ∨ (stripWs o.transcript).length < 3))
    (hwake : validate_wake_word s.ai_name o.transcript = true)
    (hsend : ∀ n, o.sendFail n = false) :
    (chunksFrom bytes).length = (bytes.length + 1023) / 1024 ∧
    (chunksFrom bytes).flatten = bytes ∧
    (∀ i, i + 1 < (chunksFrom bytes).length →
      ((chunksFrom bytes).getD i []).length = 1024) ∧
    (∀ c ∈ chunksFrom bytes, c.length ≤ 1024 ∧ c ≠ []) ∧
    ( process_complete_audio s o).msgs =
      (chunksFrom (generate_tts o.tts (generate_response o.llm
          (extract_command s.ai_name o.transcript)))).map Msg.binaryChunk
        ++ [Msg.audioEnd] ∧
    ( process_complete_audio s o).msgs.count Msg.audioEnd = 1 := by
  have hmsg : ( process_complete_audio s o).msgs =
      (chunksFrom (generate_tts o.tts (generate_response o.llm
          (extract_command s.ai_name o.transcript)))).map Msg.binaryChunk
        ++ [Msg.audioEnd] := by
    simp only [ process_complete_audio]
    rw [if_neg hne,
      if_neg (show ¬s.audio_chunks.flatten.length % 2 ≠ 0 by omega),
      if_neg htr, if_neg (by simp [hwake])]
    rw [sendSeq_all_ok o.sendFail hsend]
  have hnotin : Msg.audioEnd ∉
      (chunksFrom (generate_tts o.tts (generate_response o.llm
          (extract_command s.ai_name o.transcript)))).map Msg.binaryChunk :=
    by simp
  refine ⟨chunksFrom_length bytes, chunksFrom_flatten bytes,
    chunksFrom_getD bytes, fun c hc => chunksFrom_mem bytes c hc, hmsg, ?_⟩
  rw [hmsg, List.count_append]
  simp [List.count_eq_zero.mpr hnotin]

/-- C4 witness: a 2500-byte reply yields three chunks (1024, 1024, 452
bytes) and a concrete benign run sends its chunks followed by exactly one
audio_end marker. -/
theorem c4_stream_termination_witness :
    (chunksFrom (List.replicate 2500 7)).length
      = ((List.replicate 2500 7 : List Nat).length + 1023) / 1024 ∧
    (chunksFrom (List.replicate 2500 7)).flatten = List.replicate 2500 7 ∧
    (∀ i, i + 1 < (chunksFrom (List.replicate 2500 7)).length →
      ((chunksFrom (List.replicate 2500 7)).getD i []).length = 1024) ∧
    (∀ c ∈ chunksFrom (List.replicate 2500 7),
      c.length ≤ 1024 ∧ c ≠ []) ∧
    ( process_complete_audio sampleState sampleOracle).msgs =
      (chunksFrom (generate_tts sampleOracle.tts
          (generate_response sampleOracle.llm
            (extract_command sampleState.ai_name
              sampleOracle.transcript)))).map Msg.binaryChunk
        ++ [Msg.audioEnd] ∧
    ( process_complete_audio sampleState sampleOracle).msgs.count
      Msg.audioEnd = 1 :=
  c4_stream_termination (List.replicate 2500 7) sampleState sampleOracle
    (by decide) (by decide) (by decide) (by decide) (fun _ => rfl)

/-- C6 counterexample: for assistant name frank and the transcript that
splits as the wake pattern hey frank followed by the remainder, the
extracted command is not that remainder left unchanged - the code also
deletes the later bare occurrence of frank (and lowercases and trims), so
the removal rule is not removing only the first occurrence of the longest
matching pattern. -/
theorem c6_counterexample :
    "hey frank tell frank a joke".toList
      = "hey frank".toList ++ " tell frank a joke".toList ∧
    extract_command "frank".toList "hey frank tell frank a joke".toList
      = "tell  a joke".toList ∧
    "tell  a joke".toList ≠ " tell frank a joke".toList := by decide

/-- C6 amended: extract_command lowercases the transcript and then, for
each wake pattern in the fixed order hey+name, hi+name, hello+name, bare
name, removes every occurrence of that pattern and trims surrounding
whitespace, substituting the filler when fewer than 3 characters
remain. -/
theorem c6_removal_rule (ai_name transcript : Str) :
    extract_command ai_name transcript
      = extract_command_amended ai_name transcript := rfl

/-- C7 counterexample: removing all wake patterns from the transcript
frank a b leaves the residual a b with only two non-whitespace
characters, yet extract_command returns a b rather than the filler,
because the code compares the residual length including interior
whitespace against 3. -/
theorem c7_counterexample :
    nonWhitespaceCount
      (residual_command "frank".toList "frank a b".toList) < 3 ∧
    extract_command "frank".toList "frank a b".toList ≠ "yes?".toList := by
  decide

/-- C7 amended: whenever the residual command text after removing all
wake patterns and trimming has length under 3 - counting every character,
interior whitespace included - extract_command returns exactly the fixed
filler. -/
theorem c7_command_floor (ai_name transcript : Str)
    (h : (residual_command ai_name transcript).length < 3) :
    extract_command ai_name transcript = "yes?".toList := by
  unfold extract_command
  rw [if_pos h]

/-- C7 witness: a transcript that is exactly the assistant name leaves an
empty residual and yields the filler. -/
theorem c7_command_floor_witness :
    (residual_command "frank".toList "frank".toList).length < 3 ∧
    extract_command "frank".toList "frank".toList = "yes?".toList :=
  ⟨by decide, c7_command_floor "frank".toList "frank".toList (by decide)⟩

/-- C8 counterexample: a transcript whose trimmed form has three
characters but only two of them non-whitespace passes the length guard,
so finalization proceeds to the LLM and TTS calls and sends no
no_wake_word notice - refuting the claim that fewer than 3 non-whitespace
characters always trigger the short-transcript rejection. -/
theorem c8_counterexample :
    nonWhitespaceCount (stripWs interiorSpaceOracle.transcript) < 3 ∧
    ( process_complete_audio shortNameState interiorSpaceOracle).llmCalls
      ≠ [] ∧
    ( process_complete_audio shortNameState interiorSpaceOracle).ttsCalls
      ≠ [] ∧
    Msg.noWakeWord ∉
      ( process_complete_audio shortNameState interiorSpaceOracle).msgs := by
  decide

/-- C8 amended: whenever the transcript is empty or its trimmed length -
counting every character of the trimmed text, interior whitespace
included - is under 3, finalization sends a single no_wake_word message,
makes no LLM call and no TTS call, and clears the buffer and the
recording flag. -/
theorem c8_short_transcript (s : SessionState) (o : FinalizeOracle)
    (hne : s.audio_chunks ≠ [])
    (heven : s.audio_chunks.flatten.length % 2 = 0)
    (hshort : o.transcript = [] ∨ (stripWs o.transcript).length < 3)
    (hsend : o.sendFail 0 = false) :
    ( process_complete_audio s o).msgs = [Msg.noWakeWord] ∧
    ( process_complete_audio s o).llmCalls = [] ∧
    ( process_complete_audio s o).ttsCalls = [] ∧
    ( process_complete_audio s o).state.audio_chunks = [] ∧
    ( process_complete_audio s o).state.recording = false := by
  simp only [ process_complete_audio]
  rw [if_neg hne,
    if_neg (show ¬s.audio_chunks.flatten.length % 2 ≠ 0 by omega),
    if_pos hshort]
  simp [hsend, clearedState]

/-- C8 witness: an empty transcript on a concrete state yields exactly
one no_wake_word message, no adapter calls, and a cleared session. -/
theorem c8_short_transcript_witness :
    ( process_complete_audio sampleState emptyTranscriptOracle).msgs
      = [Msg.noWakeWord] ∧
    ( process_complete_audio sampleState emptyTranscriptOracle).llmCalls
      = [] ∧
    ( process_complete_audio sampleState emptyTranscriptOracle).ttsCalls
      = [] ∧
    ( process_complete_audio sampleState
        emptyTranscriptOracle).state.audio_chunks = [] ∧
    ( process_complete_audio sampleState
        emptyTranscriptOracle).state.recording = false :=
  c8_short_transcript sampleState emptyTranscriptOracle (by decide)
    (by decide) (by decide) rfl

/-- C9 counterexample: the two LLM failure modes return two different
fixed fallback strings - a non-200 response and a raised exception yield
distinct replies - so there is no single fixed fallback string covering
every LLM failure. -/
theorem c9_counterexample :
    generate_response LLMResult.httpError "x".toList
      = "Sorry, I\x27m having trouble thinking right now." ∧
    generate_response LLMResult.exception "x".toList
      = "My brain\x27s offline. Try again?" ∧
    generate_response LLMResult.httpError "x".toList
      ≠ generate_response LLMResult.exception "x".toList := by decide

/-- C9 amended: whenever the LLM call fails (non-200 response, or raised
exception covering connection errors and the 30 s timeout),
generate_response returns one of two fixed fallback strings - one per
failure mode - instead of raising, and finalization still proceeds to
synthesis of that fallback reply and to streaming it followed by the
audio_end marker, rather than aborting the utterance. -/
theorem c9_llm_fallback (s : SessionState) (o : FinalizeOracle)
    (hne : s.audio_chunks ≠ [])
    (heven : s.audio_chunks.flatten.length % 2 = 0)
    (htr : ¬(o.transcript = [] ∨ (stripWs o.transcript).length < 3))
    (hwake : validate_wake_word s.ai_name o.transcript = true)
    (hfail : o.llm = LLMResult.httpError ∨ o.llm = LLMResult.exception)
    (hsend : ∀ n, o.sendFail n = false) :
    (generate_response o.llm (extract_command s.ai_name o.transcript)
        = "Sorry, I\x27m having trouble thinking right now." ∨
      generate_response o.llm (extract_command s.ai_name o.transcript)
        = "My brain\x27s offline. Try again?") ∧
    ( process_complete_audio s o).ttsCalls
      = [generate_response o.llm (extract_command s.ai_name o.transcript)] ∧
    ( process_complete_audio s o).msgs =
      (chunksFrom (generate_tts o.tts (generate_response o.llm
          (extract_command s.ai_name o.transcript)))).map Msg.binaryChunk
        ++ [Msg.audioEnd] := by
  have hrec :
      ( process_complete_audio s o).ttsCalls
        = [generate_response o.llm
            (extract_command s.ai_name o.transcript)] ∧
      ( process_complete_audio s o).msgs =
        (chunksFrom (generate_tts o.tts (generate_response o.llm
            (extract_command s.ai_name o.transcript)))).map Msg.binaryChunk
          ++ [Msg.audioEnd] := by
    constructor
    · simp only [ process_complete_audio]
      rw [if_neg hne,
        if_neg (show ¬s.audio_chunks.flatten.length % 2 ≠ 0 by omega),
        if_neg htr, if_neg (by simp [hwake])]
    · simp only [ process_complete_audio]
      rw [if_neg hne,
        if_neg (show ¬s.audio_chunks.flatten.length % 2 ≠ 0 by omega),
        if_neg htr, if_neg (by simp [hwake])]
      rw [sendSeq_all_ok o.sendFail hsend]
  refine ⟨?_, hrec.1, hrec.2⟩
  rcases hfail with h | h <;> rw [h] <;> simp [generate_response]

/-- C9 witness: with the LLM adapter down (raised exception) on a
concrete benign run, the reply is the offline fallback, it is passed to
synthesis, and its audio is streamed followed by audio_end. -/
theorem c9_llm_fallback_witness :
    (generate_response llmDownOracle.llm
        (extract_command sampleState.ai_name llmDownOracle.transcript)
        = "Sorry, I\x27m having trouble thinking right now." ∨
      generate_response llmDownOracle.llm
        (extract_command sampleState.ai_name llmDownOracle.transcript)
        = "My brain\x27s offline. Try again?") ∧
    ( process_complete_audio sampleState llmDownOracle).ttsCalls
      = [generate_response llmDownOracle.llm
          (extract_command sampleState.ai_name llmDownOracle.transcript)] ∧
    ( process_complete_audio sampleState llmDownOracle).msgs =
      (chunksFrom (generate_tts llmDownOracle.tts
          (generate_response llmDownOracle.llm
            (extract_command sampleState.ai_name
              llmDownOracle.transcript)))).map Msg.binaryChunk
        ++ [Msg.audioEnd] :=
  c9_llm_fallback sampleState llmDownOracle (by decide) (by decide)
    (by decide) (by decide) (Or.inr rfl) (fun _ => rfl)

/-- C10: the wake gate is a bare substring test - validate_wake_word
returns true exactly when the lowercased assistant name occurs as a
substring of the lowercased transcript, making the greeting-prefixed
patterns redundant; in particular the gate fires when the name occurs
inside a longer word, as for frank inside frankincense. -/
theorem c10_bare_substring_gate :
    (∀ ai_name transcript : Str,
      validate_wake_word ai_name transcript = true ↔
        containsSub (lowerStr transcript) (lowerStr ai_name) = true) ∧
    validate_wake_word "frank".toList "frankincense lives".toList
      = true := by
  constructor
  · intro ai_name transcript
    have hin : ∀ p : Str,
        containsSub (p ++ lowerStr ai_name) (lowerStr ai_name) = true := by
      intro p
      rw [containsSub_iff]
      exact ⟨p, [], by simp⟩
    constructor
    · intro h
      simp only [validate_wake_word, List.any_cons, List.any_nil,
        Bool.or_eq_true, Bool.or_false] at h
      rcases h with h | h | h | h
      · exact h
      · exact containsSub_trans _ _ _ (hin "hey ".toList) h
      · exact containsSub_trans _ _ _ (hin "hi ".toList) h
      · exact containsSub_trans _ _ _ (hin "hello ".toList) h
    · intro h
      simp only [validate_wake_word, List.any_cons, List.any_nil,
        Bool.or_eq_true, Bool.or_false]
      exact Or.inl h
  · decide

end SovenServer
